import Mathlib

/-!
Verification of the `useBigIntInput` masking/parsing engine and its linear
history stack.

Strings of the TypeScript source are embedded as `List Char`; every string
transform of the source (`mask`, `unmask`, `toNumericString`,
`removeCharAt`, `adjustCursorPosition`, `handleMaskedInput`) is translated
as a computable function on `List Char`.  JavaScript bigints become `Nat`
(the spec restricts the domain to non-negative values), caret offsets
become `Int` where the source can produce negative intermediate values,
and the two possible locale configurations become the inductive `Locale`.
-/

set_option maxRecDepth 4000

namespace UseBigIntInput

/-- The two separator conventions of the source union type
`FormattingOptions` (part_002, lines 4-6). -/
structure FormattingOptions where
  decimalSeparator : Char
  thousandsSeparator : Char
deriving DecidableEq, Repr

/-- The period-decimal / comma-thousands convention. -/
def periodCommaOptions : FormattingOptions := ⟨'.', ','⟩

/-- The comma-decimal / period-thousands convention
("some locales use , as decimal separator and . as thousands separator"). -/
def commaPeriodOptions : FormattingOptions := ⟨',', '.'⟩

/-- The runtime locale determines which of the two conventions is active
(part_002, lines 9-13). -/
inductive Locale where
  | periodDecimal
  | commaDecimal
deriving DecidableEq

/-- The `FormattingOptions` resolved for a locale. -/
def Locale.opts : Locale → FormattingOptions
  | .periodDecimal => periodCommaOptions
  | .commaDecimal => commaPeriodOptions

/-- JavaScript `value.split(sep)` for a single-character separator:
splits at every occurrence, yields one more part than occurrences,
and `"".split(sep) = [""]`. -/
def splitOnChar (sep : Char) : List Char → List (List Char)
  | [] => [[]]
  | c :: rest =>
    if c = sep then [] :: splitOnChar sep rest
    else
      match splitOnChar sep rest with
      | [] => [[c]]
      | h :: t => (c :: h) :: t

theorem splitOnChar_ne_nil (sep : Char) (l : List Char) : splitOnChar sep l ≠ [] := by
  induction l with
  | nil => simp [splitOnChar]
  | cons c rest ih =>
    simp only [splitOnChar]
    split
    · simp
    · cases h : splitOnChar sep rest with
      | nil => simp
      | cons a t => simp [h]

theorem splitOnChar_of_not_mem {sep : Char} {l : List Char} (h : sep ∉ l) :
    splitOnChar sep l = [l] := by
  induction l with
  | nil => rfl
  | cons c rest ih =>
    simp only [List.mem_cons, not_or] at h
    simp only [splitOnChar]
    rw [if_neg (fun hc => h.1 hc.symm)]
    rw [ih h.2]

theorem splitOnChar_append {sep : Char} {w : List Char} (f : List Char) (h : sep ∉ w) :
    splitOnChar sep (w ++ sep :: f) = w :: splitOnChar sep f := by
  induction w with
  | nil => simp [splitOnChar]
  | cons c rest ih =>
    simp only [List.mem_cons, not_or] at h
    simp only [List.cons_append, splitOnChar, List.append_eq]
    rw [if_neg (fun hc => h.1 hc.symm), ih h.2]

theorem splitOnChar_pair {sep : Char} {w f : List Char} (hw : sep ∉ w) (hf : sep ∉ f) :
    splitOnChar sep (w ++ sep :: f) = [w, f] := by
  rw [splitOnChar_append f hw, splitOnChar_of_not_mem hf]

/-- The number of parts is one more than the number of separator occurrences. -/
theorem splitOnChar_length (sep : Char) (l : List Char) :
    (splitOnChar sep l).length = l.count sep + 1 := by
  induction l with
  | nil => simp [splitOnChar]
  | cons c rest ih =>
    simp only [splitOnChar]
    by_cases hc : c = sep
    · subst hc
      simp [List.count_cons, ih]
    · rw [if_neg hc]
      cases h : splitOnChar sep rest with
      | nil => exact absurd h (splitOnChar_ne_nil sep rest)
      | cons a t =>
        rw [h] at ih
        simp only [List.length_cons] at ih ⊢
        simp [List.count_cons, hc, ih]

/-- Every character of every part of a split is a character of the original
list and differs from the separator. -/
theorem mem_of_mem_splitOnChar {sep : Char} {l : List Char} {p : List Char} {c : Char}
    (hp : p ∈ splitOnChar sep l) (hc : c ∈ p) : c ∈ l ∧ c ≠ sep := by
  induction l generalizing p with
  | nil =>
    simp [splitOnChar] at hp
    subst hp
    simp at hc
  | cons a rest ih =>
    simp only [splitOnChar] at hp
    by_cases ha : a = sep
    · rw [if_pos ha] at hp
      rcases List.mem_cons.mp hp with h | h
      · subst h; simp at hc
      · have := ih h hc
        exact ⟨List.mem_cons_of_mem a this.1, this.2⟩
    · rw [if_neg ha] at hp
      cases hs : splitOnChar sep rest with
      | nil => exact absurd hs (splitOnChar_ne_nil sep rest)
      | cons h0 t =>
        rw [hs] at hp
        rcases List.mem_cons.mp hp with h | h
        · subst h
          rcases List.mem_cons.mp hc with h | h
          · subst h; exact ⟨List.mem_cons_self _ _, ha⟩
          · have := ih (hs ▸ List.mem_cons_self h0 t) h
            exact ⟨List.mem_cons_of_mem a this.1, this.2⟩
        · have := ih (hs ▸ List.mem_cons_of_mem h0 h) hc
          exact ⟨List.mem_cons_of_mem a this.1, this.2⟩

/-- JavaScript `\w` word characters, used by the grouping regex boundary. -/
def isWordChar (c : Char) : Bool := c.isAlphanum || c == '_'

/-- Length of the maximal digit run starting at the head of the list. -/
def digitRun : List Char → Nat
  | [] => 0
  | c :: rest => if c.isDigit then digitRun rest + 1 else 0

/-- One step of `whole.replace(/\B(?=(\d{3})+(?!\d))/g, thousandsSeparator)`
(part_002, line 17).  The regex matches the zero-width position before `c`
(with predecessor `prev`) exactly when the position is not a word boundary
and the digit run starting at `c` has positive length divisible by three. -/
def maskWholeAux (o : FormattingOptions) (prev : Char) : List Char → List Char
  | [] => []
  | c :: rest =>
    (if isWordChar prev && isWordChar c &&
        decide (3 ≤ digitRun (c :: rest)) && decide (digitRun (c :: rest) % 3 = 0)
     then [o.thousandsSeparator, c] else [c]) ++ maskWholeAux o c rest

/-- The grouping regex applied to the whole-number part. -/
def maskWhole (o : FormattingOptions) : List Char → List Char
  | [] => []
  | c :: rest => c :: maskWholeAux o c rest

/-- `mask` (part_002, lines 15-20): split at the decimal separator,
insert thousands separators into the whole part, and rejoin with the
fraction when one exists.  The destructuring `[whole, fraction]` keeps only
the first two parts of the split. -/
def mask (value : List Char) (o : FormattingOptions) : List Char :=
  match splitOnChar o.decimalSeparator value with
  | [] => []
  | [whole] => maskWhole o whole
  | whole :: fraction :: _ => maskWhole o whole ++ o.decimalSeparator :: fraction

/-- `unmask` (part_002, lines 22-24): `value.replaceAll(thousandsSeparator, '')`
removes every occurrence of the (single-character) thousands separator. -/
def unmask (value : List Char) (o : FormattingOptions) : List Char :=
  value.filter (fun c => c != o.thousandsSeparator)

theorem unmask_maskWholeAux {o : FormattingOptions} (l : List Char) (prev : Char)
    (h : ∀ c ∈ l, c ≠ o.thousandsSeparator) :
    unmask (maskWholeAux o prev l) o = l := by
  induction l generalizing prev with
  | nil => rfl
  | cons c rest ih =>
    have hc : c ≠ o.thousandsSeparator := h c (List.mem_cons_self c rest)
    have hrest : ∀ x ∈ rest, x ≠ o.thousandsSeparator :=
      fun x hx => h x (List.mem_cons_of_mem c hx)
    have ihc := ih c hrest
    simp only [unmask] at ihc ⊢
    simp only [maskWholeAux]
    split <;> simp [hc, ihc]

theorem unmask_maskWhole {o : FormattingOptions} (l : List Char)
    (h : ∀ c ∈ l, c ≠ o.thousandsSeparator) :
    unmask (maskWhole o l) o = l := by
  cases l with
  | nil => rfl
  | cons c rest =>
    have hc : c ≠ o.thousandsSeparator := h c (List.mem_cons_self c rest)
    have hrest : ∀ x ∈ rest, x ≠ o.thousandsSeparator :=
      fun x hx => h x (List.mem_cons_of_mem c hx)
    simp only [maskWhole, unmask, List.filter_cons]
    simp [hc]
    exact unmask_maskWholeAux rest c hrest

/-- The grammar of numeric strings: digits with at most one occurrence of
the decimal separator and no thousands separator (the range of
`toNumericString`). -/
def IsNumericString (o : FormattingOptions) (n : List Char) : Prop :=
  n.all Char.isDigit = true ∨
    ∃ w f, n = w ++ o.decimalSeparator :: f ∧
      w.all Char.isDigit = true ∧ f.all Char.isDigit = true

theorem digit_ne_of_not_digit {c d : Char} (hc : c.isDigit = true) (hd : d.isDigit = false) :
    c ≠ d := by
  intro h
  rw [h, hd] at hc
  exact Bool.false_ne_true hc

theorem locale_sep_not_digit (l : Locale) :
    l.opts.decimalSeparator.isDigit = false ∧ l.opts.thousandsSeparator.isDigit = false := by
  cases l <;> exact ⟨by decide, by decide⟩

theorem locale_sep_ne (l : Locale) :
    l.opts.decimalSeparator ≠ l.opts.thousandsSeparator := by
  cases l <;> decide

/-- Helper shared by several claims: `unmask` inverts `mask` on every
numeric string, in either locale. -/
theorem unmask_mask_of_numeric (l : Locale) (n : List Char)
    (h : IsNumericString l.opts n) : unmask (mask n l.opts) l.opts = n := by
  rcases h with hdig | ⟨w, f, rfl, hw, hf⟩
  · have hall : ∀ c ∈ n, c.isDigit = true := List.all_eq_true.mp hdig
    have hdec : l.opts.decimalSeparator ∉ n := fun hmem =>
      digit_ne_of_not_digit (hall _ hmem) (locale_sep_not_digit l).1 rfl
    rw [mask, splitOnChar_of_not_mem hdec]
    exact unmask_maskWhole n
      (fun c hc => digit_ne_of_not_digit (hall c hc) (locale_sep_not_digit l).2)
  · have hallw : ∀ c ∈ w, c.isDigit = true := List.all_eq_true.mp hw
    have hallf : ∀ c ∈ f, c.isDigit = true := List.all_eq_true.mp hf
    have hdecw : l.opts.decimalSeparator ∉ w := fun hmem =>
      digit_ne_of_not_digit (hallw _ hmem) (locale_sep_not_digit l).1 rfl
    have hdecf : l.opts.decimalSeparator ∉ f := fun hmem =>
      digit_ne_of_not_digit (hallf _ hmem) (locale_sep_not_digit l).1 rfl
    rw [mask, splitOnChar_pair hdecw hdecf]
    simp only [unmask, List.filter_append, List.filter_cons]
    have hds : (l.opts.decimalSeparator != l.opts.thousandsSeparator) = true := by
      simpa using locale_sep_ne l
    rw [hds]
    have h1 : unmask (maskWhole l.opts w) l.opts = w := unmask_maskWhole w
      (fun c hc => digit_ne_of_not_digit (hallw c hc) (locale_sep_not_digit l).2)
    have h2 : f.filter (fun c => c != l.opts.thousandsSeparator) = f :=
      List.filter_eq_self.mpr (fun c hc => by
        simpa using digit_ne_of_not_digit (hallf c hc) (locale_sep_not_digit l).2)
    simp only [unmask] at h1
    rw [h1, h2]
    simp

/-- C5: for every `NumericString` in the range of `toNumericString`
(digits with at most one decimal separator and no thousands separator),
`unmask(mask(n))` equals `n` under the active `FormattingOptions`. -/
theorem c5_mask_unmask_inverse (l : Locale) (n : List Char)
    (h : IsNumericString l.opts n) : unmask (mask n l.opts) l.opts = n :=
  unmask_mask_of_numeric l n h

/-- Witness for C5 at the concrete numeric string `"1234567.5"` in the
period-decimal locale. -/
theorem c5_mask_unmask_inverse_witness :
    unmask (mask ("1234567.5".toList) Locale.periodDecimal.opts) Locale.periodDecimal.opts =
      "1234567.5".toList :=
  c5_mask_unmask_inverse Locale.periodDecimal _
    (Or.inr ⟨"1234567".toList, "5".toList, by decide, by decide, by decide⟩)

/-- The first two steps of `toNumericString` (part_002, lines 40-46): rewrite a
trailing thousands separator into the decimal separator (the on-screen-keyboard
workaround), then strip every character that is neither a digit nor the decimal
separator. -/
def cleanedInput (value : List Char) (o : FormattingOptions) : List Char :=
  (if value.getLast? = some o.thousandsSeparator
    then value.dropLast ++ [o.decimalSeparator] else value).filter
    (fun c => c.isDigit || c == o.decimalSeparator)

/-- `toNumericString` (part_002, lines 30-53): returns the empty string for a
bare decimal separator; otherwise cleans the input, splits at the decimal
separator, and with no fraction parts returns the whole part, else joins all
fraction parts and truncates them to `decimals` digits. -/
def toNumericString (value : List Char) (decimals : Nat) (o : FormattingOptions) :
    List Char :=
  if value = [o.decimalSeparator] then []
  else
    match splitOnChar o.decimalSeparator (cleanedInput value o) with
    | [] => []
    | [whole] => whole
    | whole :: fraction => whole ++ o.decimalSeparator :: (fraction.flatten.take decimals)

theorem mem_of_getLast_eq {l : List Char} {c : Char} (h : l.getLast? = some c) : c ∈ l := by
  induction l with
  | nil => simp at h
  | cons a rest ih =>
    cases rest with
    | nil =>
      simp [List.getLast?] at h
      simp [h]
    | cons b t =>
      rw [List.getLast?_cons_cons] at h
      exact List.mem_cons_of_mem a (ih h)

theorem mem_of_mem_flatten {L : List (List Char)} {c : Char} (h : c ∈ L.flatten) :
    ∃ p ∈ L, c ∈ p := by
  simpa using List.mem_flatten.mp h

theorem mem_of_mem_take {l : List Char} {n : Nat} {c : Char} (h : c ∈ l.take n) : c ∈ l := by
  induction l generalizing n with
  | nil => simp at h
  | cons a rest ih =>
    cases n with
    | zero => simp at h
    | succ m =>
      rcases List.mem_cons.mp h with h | h
      · simp [h]
      · exact List.mem_cons_of_mem a (ih h)

/-- Shape of `toNumericString` output: either all digits, or a digit whole
part, the decimal separator and a digit fraction part of at most `decimals`
characters. -/
theorem toNumericString_shape (l : Locale) (value : List Char) (decimals : Nat) :
    (toNumericString value decimals l.opts).all Char.isDigit = true ∨
      ∃ w f, toNumericString value decimals l.opts = w ++ l.opts.decimalSeparator :: f ∧
        w.all Char.isDigit = true ∧ f.all Char.isDigit = true ∧ f.length ≤ decimals := by
  rw [toNumericString]
  split
  · left; rfl
  · have hpart : ∀ p ∈ splitOnChar l.opts.decimalSeparator (cleanedInput value l.opts),
        p.all Char.isDigit = true := by
      intro p hp
      rw [List.all_eq_true]
      intro c hc
      have ⟨hmem, hne⟩ := mem_of_mem_splitOnChar hp hc
      have := List.of_mem_filter (p := fun c => c.isDigit || c == l.opts.decimalSeparator)
        (by simpa [cleanedInput] using hmem)
      rcases Bool.or_eq_true_iff.mp this with h | h
      · exact h
      · exact absurd (by simpa using h) hne
    cases hs : splitOnChar l.opts.decimalSeparator (cleanedInput value l.opts) with
    | nil => left; rfl
    | cons whole fraction =>
      have hwhole : whole.all Char.isDigit = true :=
        hpart whole (hs ▸ List.mem_cons_self whole fraction)
      cases fraction with
      | nil => left; exact hwhole
      | cons f0 frest =>
        right
        refine ⟨whole, (f0 :: frest).flatten.take decimals, rfl, hwhole, ?_, ?_⟩
        · rw [List.all_eq_true]
          intro c hc
          have hj := mem_of_mem_take hc
          obtain ⟨p, hpL, hcp⟩ := mem_of_mem_flatten hj
          have hpS : p ∈ splitOnChar l.opts.decimalSeparator (cleanedInput value l.opts) :=
            hs ▸ List.mem_cons_of_mem whole hpL
          exact List.all_eq_true.mp (hpart p hpS) c hcp
        · simp

/-- A `toNumericString` output other than the bare decimal separator is a
fixed point of `toNumericString` (at the same scale). -/
theorem toNumericString_fixed (l : Locale) (y : List Char) (decimals : Nat)
    (hshape : y.all Char.isDigit = true ∨
      ∃ w f, y = w ++ l.opts.decimalSeparator :: f ∧
        w.all Char.isDigit = true ∧ f.all Char.isDigit = true ∧ f.length ≤ decimals)
    (hne : y ≠ [l.opts.decimalSeparator]) :
    toNumericString y decimals l.opts = y := by
  have hchars : ∀ c ∈ y, c.isDigit = true ∨ c = l.opts.decimalSeparator := by
    rcases hshape with hdig | ⟨w, f, rfl, hw, hf, _⟩
    · exact fun c hc => Or.inl (List.all_eq_true.mp hdig c hc)
    · intro c hc
      rcases List.mem_append.mp hc with h | h
      · exact Or.inl (List.all_eq_true.mp hw c h)
      · rcases List.mem_cons.mp h with h | h
        · exact Or.inr h
        · exact Or.inl (List.all_eq_true.mp hf c h)
  have hlast : ¬ y.getLast? = some l.opts.thousandsSeparator := by
    intro h
    have hmem := mem_of_getLast_eq h
    rcases hchars _ hmem with h | h
    · rw [(locale_sep_not_digit l).2] at h
      exact Bool.false_ne_true h
    · exact locale_sep_ne l h.symm
  have hclean : cleanedInput y l.opts = y := by
    rw [cleanedInput, if_neg hlast]
    exact List.filter_eq_self.mpr (fun c hc => by
      rcases hchars c hc with h | h <;> simp [h])
  rw [toNumericString, if_neg hne, hclean]
  rcases hshape with hdig | ⟨w, f, rfl, hw, hf, hlen⟩
  · have hdec : l.opts.decimalSeparator ∉ y := fun hmem =>
      digit_ne_of_not_digit (List.all_eq_true.mp hdig _ hmem) (locale_sep_not_digit l).1 rfl
    rw [splitOnChar_of_not_mem hdec]
  · have hdecw : l.opts.decimalSeparator ∉ w := fun hmem =>
      digit_ne_of_not_digit (List.all_eq_true.mp hw _ hmem) (locale_sep_not_digit l).1 rfl
    have hdecf : l.opts.decimalSeparator ∉ f := fun hmem =>
      digit_ne_of_not_digit (List.all_eq_true.mp hf _ hmem) (locale_sep_not_digit l).1 rfl
    rw [splitOnChar_pair hdecw hdecf]
    simp [List.take_of_length_le hlen]

/-- C4 counterexample: the claim fails at the raw input consisting of the
bare thousands separator `","` (period-decimal locale, scale 2): its
normalization is `"."`, whose normalization is `""`. -/
theorem c4_idempotence_counterexample :
    toNumericString (toNumericString [','] 2 periodCommaOptions) 2 periodCommaOptions ≠
      toNumericString [','] 2 periodCommaOptions := by
  decide

/-- C4 amended: normalization is idempotent for every raw input whose
normalization is not the bare decimal separator; that single exception,
reached exactly by inputs such as the bare thousands separator, normalizes
to the empty string on the second pass. -/
theorem c4_idempotence_amended (l : Locale) (x : List Char) (s : Nat) :
    toNumericString x s l.opts = [l.opts.decimalSeparator] ∨
      toNumericString (toNumericString x s l.opts) s l.opts = toNumericString x s l.opts := by
  by_cases h : toNumericString x s l.opts = [l.opts.decimalSeparator]
  · exact Or.inl h
  · exact Or.inr (toNumericString_fixed l _ s (toNumericString_shape l x s) h)

/-- Numeric value of a decimal digit character. -/
def charToDigit (c : Char) : Nat := c.toNat - 48

/-- Value of a big-endian string of decimal digits (empty string is 0,
matching JavaScript `BigInt("")`). -/
def digitsVal (l : List Char) : Nat := l.foldl (fun a c => a * 10 + charToDigit c) 0

/-- Fuel-driven core of decimal rendering, least-significant digit first into
the accumulator. -/
def natToChars (fuel n : Nat) (acc : List Char) : List Char :=
  match fuel with
  | 0 => acc
  | fuel + 1 =>
    if n < 10 then Nat.digitChar n :: acc
    else natToChars fuel (n / 10) (Nat.digitChar (n % 10) :: acc)

/-- Decimal rendering of a natural number, as JavaScript `BigInt.toString`:
no sign, no leading zeros, `"0"` for zero. -/
def natToString (n : Nat) : List Char := natToChars (n + 1) n []

/-- Strip the trailing `'0'` characters of a fraction part. -/
def trimTrailingZeros (l : List Char) : List Char :=
  (l.reverse.dropWhile (fun c => c == '0')).reverse

/-- Modelled from the spec: `formatScaledValue` is realized by the external
`viem` `formatUnits`, which is not part of this repository.  Per §4.1 it is
the exact inverse of `parseScaledValue` on its producible domain: the decimal
digits of the value are left-padded with zeros to at least `s` characters,
the last `s` characters become the fraction, trailing zeros of the fraction
are dropped, an empty whole part renders as `"0"`, and a non-empty trimmed
fraction is appended after a period. -/
def formatUnits (v s : Nat) : List Char :=
  let ds := natToString v
  let padded := List.replicate (s - ds.length) '0' ++ ds
  let ip := padded.take (padded.length - s)
  let ft := trimTrailingZeros (padded.drop (padded.length - s))
  (if ip = [] then ['0'] else ip) ++ (if ft = [] then [] else '.' :: ft)

/-- Modelled from the spec: the external `viem` `parseUnits` (not part of this
repository) realizes `parseScaledValue`.  Per §4.1 it treats its input as a
fixed-point decimal with at most `s` fractional digits and returns the integer
scaled by `10^s`, discarding a trailing separator with no digits as zero
fraction; it fails on inputs outside the grammar `toNumericString` produces. -/
def viemParseUnits (value : List Char) (s : Nat) : Option Nat :=
  match splitOnChar '.' value with
  | [i] => if i.all Char.isDigit then some (digitsVal i * 10 ^ s) else none
  | [i, f] =>
    if i.all Char.isDigit && f.all Char.isDigit && decide (f.length ≤ s)
    then some (digitsVal i * 10 ^ s + digitsVal f * 10 ^ (s - f.length))
    else none
  | _ => none

/-- JavaScript `value.replace(',', '.')`: replaces only the first comma. -/
def replaceFirstComma : List Char → List Char
  | [] => []
  | c :: r => if c = ',' then '.' :: r else c :: replaceFirstComma r

/-- `parseUnits` (part_002, lines 26-28): replace the first comma with a
period, then delegate to `viem`'s `parseUnits`. -/
def parseUnits (value : List Char) (decimals : Nat) : Option Nat :=
  viemParseUnits (replaceFirstComma value) decimals

theorem digitsVal_foldl (b : List Char) (x : Nat) :
    b.foldl (fun a c => a * 10 + charToDigit c) x =
      x * 10 ^ b.length + digitsVal b := by
  induction b generalizing x with
  | nil => simp [digitsVal]
  | cons c rest ih =>
    simp only [List.foldl_cons, List.length_cons, digitsVal]
    rw [ih (x * 10 + charToDigit c), ih (0 * 10 + charToDigit c)]
    ring

theorem digitsVal_append (a b : List Char) :
    digitsVal (a ++ b) = digitsVal a * 10 ^ b.length + digitsVal b := by
  rw [digitsVal, List.foldl_append]
  exact digitsVal_foldl b _

theorem digitsVal_replicate_zero_append (k : Nat) (l : List Char) :
    digitsVal (List.replicate k '0' ++ l) = digitsVal l := by
  induction k with
  | zero => simp
  | succ m ih =>
    rw [List.replicate_succ, List.cons_append]
    simpa [digitsVal, charToDigit] using ih

theorem charToDigit_digitChar {n : Nat} (h : n < 10) :
    charToDigit (Nat.digitChar n) = n := by
  interval_cases n <;> decide

theorem digitChar_isDigit {n : Nat} (h : n < 10) :
    (Nat.digitChar n).isDigit = true := by
  interval_cases n <;> decide

theorem natToChars_val (fuel : Nat) : ∀ n acc, n < fuel →
    digitsVal (natToChars fuel n acc) = n * 10 ^ acc.length + digitsVal acc := by
  induction fuel with
  | zero => intro n acc h; omega
  | succ fuel ih =>
    intro n acc h
    rw [natToChars]
    by_cases h10 : n < 10
    · rw [if_pos h10]
      have : Nat.digitChar n :: acc = [Nat.digitChar n] ++ acc := rfl
      rw [this, digitsVal_append]
      simp [digitsVal, charToDigit_digitChar h10]
    · rw [if_neg h10]
      have hn0 : 0 < n := by omega
      have hdiv : n / 10 < fuel := by
        have := Nat.div_lt_self hn0 (by norm_num : 1 < 10)
        omega
      rw [ih (n / 10) _ hdiv]
      have hcons : Nat.digitChar (n % 10) :: acc = [Nat.digitChar (n % 10)] ++ acc := rfl
      rw [hcons, digitsVal_append]
      have hmod : charToDigit (Nat.digitChar (n % 10)) = n % 10 :=
        charToDigit_digitChar (Nat.mod_lt n (by norm_num))
      simp only [List.length_append, List.length_cons, List.length_nil, digitsVal,
        List.foldl_cons, List.foldl_nil]
      rw [hmod]
      have hdm : n / 10 * 10 + n % 10 = n := by omega
      calc n / 10 * 10 ^ (1 + acc.length) + ((0 * 10 + n % 10) * 10 ^ acc.length +
            List.foldl (fun a c => a * 10 + charToDigit c) 0 acc)
          = (n / 10 * 10 + n % 10) * 10 ^ acc.length +
            List.foldl (fun a c => a * 10 + charToDigit c) 0 acc := by ring
        _ = n * 10 ^ acc.length + digitsVal acc := by rw [hdm]; rfl

theorem digitsVal_natToString (n : Nat) : digitsVal (natToString n) = n := by
  rw [natToString, natToChars_val (n + 1) n [] (Nat.lt_succ_self n)]
  simp [digitsVal]

theorem natToChars_all_digits (fuel : Nat) : ∀ n acc, acc.all Char.isDigit = true →
    (natToChars fuel n acc).all Char.isDigit = true := by
  induction fuel with
  | zero => intro n acc h; exact h
  | succ fuel ih =>
    intro n acc h
    rw [natToChars]
    by_cases h10 : n < 10
    · rw [if_pos h10]
      simp only [List.all_cons, digitChar_isDigit h10, Bool.true_and]
      exact h
    · rw [if_neg h10]
      refine ih (n / 10) _ ?_
      simp only [List.all_cons, digitChar_isDigit (Nat.mod_lt n (by omega)), Bool.true_and]
      exact h

theorem natToString_all_digits (n : Nat) : (natToString n).all Char.isDigit = true :=
  natToChars_all_digits (n + 1) n [] rfl

theorem mem_of_mem_dropWhile {p : Char → Bool} {l : List Char} {c : Char}
    (h : c ∈ l.dropWhile p) : c ∈ l := by
  induction l with
  | nil => simp at h
  | cons a rest ih =>
    rw [List.dropWhile_cons] at h
    split at h
    · exact List.mem_cons_of_mem a (ih h)
    · exact h

theorem mem_of_mem_trim {l : List Char} {c : Char} (h : c ∈ trimTrailingZeros l) :
    c ∈ l := by
  rw [trimTrailingZeros, List.mem_reverse] at h
  exact List.mem_reverse.mp (mem_of_mem_dropWhile h)

/-- A list is its trimmed form followed by trailing zeros. -/
theorem trim_spec (l : List Char) :
    l = trimTrailingZeros l ++
        List.replicate (l.length - (trimTrailingZeros l).length) '0' ∧
      (trimTrailingZeros l).length ≤ l.length := by
  have hsplit : l.reverse.takeWhile (fun c => c == '0') ++
      l.reverse.dropWhile (fun c => c == '0') = l.reverse :=
    List.takeWhile_append_dropWhile _ _
  have htake : l.reverse.takeWhile (fun c => c == '0') =
      List.replicate (l.reverse.takeWhile (fun c => c == '0')).length '0' :=
    List.eq_replicate_of_mem (fun b hb => by
      simpa using List.mem_takeWhile_imp hb)
  have hl : l = trimTrailingZeros l ++
      List.replicate (l.reverse.takeWhile (fun c => c == '0')).length '0' := by
    conv_lhs => rw [← List.reverse_reverse l, ← hsplit]
    rw [List.reverse_append, trimTrailingZeros]
    congr 1
    conv_lhs => rw [htake]
    rw [List.reverse_replicate]
  have hlen : l.length = (trimTrailingZeros l).length +
      (l.reverse.takeWhile (fun c => c == '0')).length := by
    conv_lhs => rw [hl]
    simp
  constructor
  · have : l.length - (trimTrailingZeros l).length =
        (l.reverse.takeWhile (fun c => c == '0')).length := by omega
    rw [this]
    exact hl
  · omega

theorem digitsVal_replicate_zero (k : Nat) : digitsVal (List.replicate k '0') = 0 := by
  have h := digitsVal_replicate_zero_append k []
  rw [List.append_nil] at h
  exact h

theorem digitsVal_trim (l : List Char) :
    digitsVal l =
      digitsVal (trimTrailingZeros l) * 10 ^ (l.length - (trimTrailingZeros l).length) := by
  obtain ⟨hl, _⟩ := trim_spec l
  conv_lhs => rw [hl]
  rw [digitsVal_append, digitsVal_replicate_zero, List.length_replicate]
  omega

theorem replaceFirstComma_eq_self {l : List Char} (h : ∀ c ∈ l, c ≠ ',') :
    replaceFirstComma l = l := by
  induction l with
  | nil => rfl
  | cons c rest ih =>
    rw [replaceFirstComma, if_neg (h c (List.mem_cons_self c rest)),
      ih (fun x hx => h x (List.mem_cons_of_mem c hx))]

/-- The fixed-point parse of the fixed-point rendering recovers the value. -/
theorem viemParseUnits_formatUnits (v s : Nat) :
    viemParseUnits (formatUnits v s) s = some v := by
  have hform : formatUnits v s =
      (if (List.replicate (s - (natToString v).length) '0' ++ natToString v).take
          ((List.replicate (s - (natToString v).length) '0' ++ natToString v).length - s) = []
       then ['0']
       else (List.replicate (s - (natToString v).length) '0' ++ natToString v).take
          ((List.replicate (s - (natToString v).length) '0' ++ natToString v).length - s)) ++
      (if trimTrailingZeros
          ((List.replicate (s - (natToString v).length) '0' ++ natToString v).drop
            ((List.replicate (s - (natToString v).length) '0' ++ natToString v).length - s)) = []
       then []
       else '.' :: trimTrailingZeros
          ((List.replicate (s - (natToString v).length) '0' ++ natToString v).drop
            ((List.replicate (s - (natToString v).length) '0' ++ natToString v).length - s))) :=
    rfl
  generalize hpad : List.replicate (s - (natToString v).length) '0' ++ natToString v = padded
    at hform
  have hdig : padded.all Char.isDigit = true := by
    rw [← hpad, List.all_eq_true]
    intro c hc
    rcases List.mem_append.mp hc with h | h
    · rw [List.eq_of_mem_replicate h]; decide
    · exact List.all_eq_true.mp (natToString_all_digits v) c h
  have hlen : s ≤ padded.length := by
    rw [← hpad]
    simp only [List.length_append, List.length_replicate]
    omega
  have hval : digitsVal padded = v := by
    rw [← hpad, digitsVal_replicate_zero_append, digitsVal_natToString]
  rw [hform, ← hval]
  -- abbreviations for the three pieces
  have hip_dig : (padded.take (padded.length - s)).all Char.isDigit = true := by
    rw [List.all_eq_true]
    exact fun c hc => List.all_eq_true.mp hdig c (mem_of_mem_take hc)
  have hfp_dig : ∀ c ∈ padded.drop (padded.length - s), c.isDigit = true :=
    fun c hc => List.all_eq_true.mp hdig c (List.mem_of_mem_drop hc)
  have hft_dig : (trimTrailingZeros (padded.drop (padded.length - s))).all
      Char.isDigit = true := by
    rw [List.all_eq_true]
    exact fun c hc => hfp_dig c (mem_of_mem_trim hc)
  have hfp_len : (padded.drop (padded.length - s)).length = s := by
    rw [List.length_drop]
    omega
  have hft_len : (trimTrailingZeros (padded.drop (padded.length - s))).length ≤ s := by
    have h1 := (trim_spec (padded.drop (padded.length - s))).2
    rw [hfp_len] at h1
    exact h1
  have hpadded_val : digitsVal padded =
      digitsVal (padded.take (padded.length - s)) * 10 ^ s +
        digitsVal (padded.drop (padded.length - s)) := by
    conv_lhs => rw [← List.take_append_drop (padded.length - s) padded]
    rw [digitsVal_append, hfp_len]
  have hfp_val : digitsVal (padded.drop (padded.length - s)) =
      digitsVal (trimTrailingZeros (padded.drop (padded.length - s))) *
        10 ^ (s - (trimTrailingZeros (padded.drop (padded.length - s))).length) := by
    have := digitsVal_trim (padded.drop (padded.length - s))
    rwa [hfp_len] at this
  have hD_dig : (if padded.take (padded.length - s) = [] then ['0']
      else padded.take (padded.length - s)).all Char.isDigit = true := by
    split
    · decide
    · exact hip_dig
  have hD_val : digitsVal (if padded.take (padded.length - s) = [] then ['0']
      else padded.take (padded.length - s)) = digitsVal (padded.take (padded.length - s)) := by
    split
    · rename_i h; rw [h]; decide
    · rfl
  have hD_dot : '.' ∉ (if padded.take (padded.length - s) = [] then ['0']
      else padded.take (padded.length - s)) := by
    intro hmem
    have := List.all_eq_true.mp hD_dig _ hmem
    simp at this
  have hft_dot : '.' ∉ trimTrailingZeros (padded.drop (padded.length - s)) := by
    intro hmem
    have := List.all_eq_true.mp hft_dig _ hmem
    simp at this
  by_cases hft : trimTrailingZeros (padded.drop (padded.length - s)) = []
  · rw [if_pos hft, List.append_nil]
    rw [viemParseUnits, splitOnChar_of_not_mem hD_dot]
    simp only [hD_dig, if_true]
    have hfp0 : digitsVal (padded.drop (padded.length - s)) = 0 := by
      rw [hfp_val, hft]
      simp [digitsVal]
    rw [hD_val]
    congr 1
    omega
  · rw [if_neg hft]
    rw [viemParseUnits, splitOnChar_pair hD_dot hft_dot]
    simp only [hD_dig, hft_dig, hft_len, decide_eq_true_eq, Bool.true_and, Bool.and_true,
      decide_True, if_true]
    rw [hD_val]
    congr 1
    rw [hpadded_val, hfp_val]

/-- The rendering of a scaled value is a numeric string for the
period-decimal convention. -/
theorem formatUnits_shape (v s : Nat) :
    IsNumericString periodCommaOptions (formatUnits v s) := by
  have hform : formatUnits v s =
      (if (List.replicate (s - (natToString v).length) '0' ++ natToString v).take
          ((List.replicate (s - (natToString v).length) '0' ++ natToString v).length - s) = []
       then ['0']
       else (List.replicate (s - (natToString v).length) '0' ++ natToString v).take
          ((List.replicate (s - (natToString v).length) '0' ++ natToString v).length - s)) ++
      (if trimTrailingZeros
          ((List.replicate (s - (natToString v).length) '0' ++ natToString v).drop
            ((List.replicate (s - (natToString v).length) '0' ++ natToString v).length - s)) = []
       then []
       else '.' :: trimTrailingZeros
          ((List.replicate (s - (natToString v).length) '0' ++ natToString v).drop
            ((List.replicate (s - (natToString v).length) '0' ++ natToString v).length - s))) :=
    rfl
  generalize hpad : List.replicate (s - (natToString v).length) '0' ++ natToString v = padded
    at hform
  have hdig : padded.all Char.isDigit = true := by
    rw [← hpad, List.all_eq_true]
    intro c hc
    rcases List.mem_append.mp hc with h | h
    · rw [List.eq_of_mem_replicate h]; decide
    · exact List.all_eq_true.mp (natToString_all_digits v) c h
  have hD_dig : (if padded.take (padded.length - s) = [] then ['0']
      else padded.take (padded.length - s)).all Char.isDigit = true := by
    split
    · decide
    · rw [List.all_eq_true]
      exact fun c hc => List.all_eq_true.mp hdig c (mem_of_mem_take hc)
  have hft_dig : (trimTrailingZeros (padded.drop (padded.length - s))).all
      Char.isDigit = true := by
    rw [List.all_eq_true]
    exact fun c hc =>
      List.all_eq_true.mp hdig c (List.mem_of_mem_drop (mem_of_mem_trim hc))
  rw [hform]
  by_cases hft : trimTrailingZeros (padded.drop (padded.length - s)) = []
  · left
    rw [if_pos hft, List.append_nil]
    exact hD_dig
  · right
    exact ⟨_, _, by rw [if_neg hft]; rfl, hD_dig, hft_dig⟩

theorem formatUnits_no_comma (v s : Nat) : ∀ c ∈ formatUnits v s, c ≠ ',' := by
  intro c hc
  rcases formatUnits_shape v s with hdig | ⟨w, f, heq, hw, hf⟩
  · exact digit_ne_of_not_digit (List.all_eq_true.mp hdig c hc) (by decide)
  · rw [heq] at hc
    rcases List.mem_append.mp hc with h | h
    · exact digit_ne_of_not_digit (List.all_eq_true.mp hw c h) (by decide)
    · rcases List.mem_cons.mp h with h | h
      · rw [h]; decide
      · exact digit_ne_of_not_digit (List.all_eq_true.mp hf c h) (by decide)

/-- The round-trip law holds without restriction under the period-decimal /
comma-thousands convention. -/
theorem roundtrip_period_locale (v s : Nat) :
    parseUnits (unmask (mask (formatUnits v s) periodCommaOptions) periodCommaOptions) s =
      some v := by
  have h := unmask_mask_of_numeric Locale.periodDecimal _ (formatUnits_shape v s)
  simp only [Locale.opts] at h
  rw [h, parseUnits, replaceFirstComma_eq_self (formatUnits_no_comma v s)]
  exact viemParseUnits_formatUnits v s

/-- C1: evaluation of the code at the failing input — in the comma-decimal
locale the round-trip returns 150 for the scaled value 15 at scale 1, because
`formatUnits` renders `"1.5"` with a period decimal point, which the
comma-decimal `mask`/`unmask` treat as the thousands separator and strip. -/
theorem c1_roundtrip_failure :
    parseUnits (unmask (mask (formatUnits 15 1) commaPeriodOptions) commaPeriodOptions) 1 =
      some 150 ∧
    parseUnits (unmask (mask (formatUnits 15 1) commaPeriodOptions) commaPeriodOptions) 1 ≠
      some 15 := by
  constructor <;> decide

/-- JavaScript `slice` start/end index resolution: a negative index counts
from the end of the string, clamped at 0. -/
def jsSliceIdx (len : Nat) (i : Int) : Nat :=
  if i < 0 then ((len : Int) + i).toNat else i.toNat

/-- `removeCharAt` (part_002, lines 55-56):
`value.slice(0, index - 1) + value.slice(index)` — removes the character
before `index`. -/
def removeCharAt (value : List Char) (index : Int) : List Char :=
  value.take (jsSliceIdx value.length (index - 1)) ++
    value.drop (jsSliceIdx value.length index)

/-- `adjustCursorPosition` (part_002, lines 58-70): advance the caret by one
when masking lengthened the text, retreat it by one when masking shortened
the text, and clamp the result from below at 0. -/
def adjustCursorPosition (inputValue maskedInput : List Char) (cursor : Int) : Int :=
  let c1 := if inputValue.length < maskedInput.length then cursor + 1 else cursor
  let c2 := if maskedInput.length < inputValue.length then c1 - 1 else c1
  if 0 < c2 then c2 else 0

/-- The value handed back by `handleMaskedInput`. -/
structure HandleResult where
  numericValue : List Char
  maskedValue : List Char
  cursor : Int
deriving DecidableEq, Repr

/-- `handleMaskedInput` (part_002, lines 72-117).  The event is embedded as
the raw text, whether the native event's `inputType` is
`deleteContentBackward`, and `selectionStart` (`none` models `null`, with the
source's fallback to the end of the masked text). -/
def handleMaskedInput (rawInputValue : List Char) (deleteContentBackward : Bool)
    (selectionStart : Option Nat) (decimals : Nat) (o : FormattingOptions) :
    HandleResult :=
  let numericValue := toNumericString rawInputValue decimals o
  let maskedValue := mask numericValue o
  let cursor : Nat := selectionStart.getD maskedValue.length
  if deleteContentBackward = true ∧ maskedValue.get? cursor = some o.thousandsSeparator
  then
    let thousandSeparatorsBeforeCursor :=
      (splitOnChar o.thousandsSeparator (maskedValue.take cursor)).length - 1
    let newNumericValue :=
      removeCharAt numericValue ((cursor : Int) - thousandSeparatorsBeforeCursor)
    let newMaskedInput := mask newNumericValue o
    let newCursor : Int :=
      if 1 < (maskedValue.length : Int) - (newMaskedInput.length : Int)
      then (cursor : Int) - 2 else (cursor : Int) - 1
    ⟨newNumericValue, newMaskedInput, if 0 < newCursor then newCursor else 0⟩
  else
    ⟨numericValue, maskedValue, adjustCursorPosition rawInputValue maskedValue (cursor : Int)⟩

/-- C2: when `handleMaskedInput` processes a single-character backward
deletion and the character at the caret index of the masked text is the
thousands separator, the result removes the character just before index
`caret - (number of thousands separators before the caret)` in the unmasked
numeric text (`removeCharAt` deletes the character preceding its index) and
re-masks; the new caret is `caret - 1`, or `caret - 2` when the re-masked
string is shorter than the previous masked string by more than one
character, clamped at 0. -/
theorem c2_separator_delete (l : Locale) (raw : List Char) (decimals cursor : Nat)
    (numeric masked nn nm : List Char) (seps : Nat) (nc : Int)
    (hnumeric : numeric = toNumericString raw decimals l.opts)
    (hmasked : masked = mask numeric l.opts)
    (hsep : masked.get? cursor = some l.opts.thousandsSeparator)
    (hseps : seps = (masked.take cursor).count l.opts.thousandsSeparator)
    (hnn : nn = removeCharAt numeric ((cursor : Int) - seps))
    (hnm : nm = mask nn l.opts)
    (hnc : nc = if 1 < (masked.length : Int) - (nm.length : Int)
      then (cursor : Int) - 2 else (cursor : Int) - 1) :
    handleMaskedInput raw true (some cursor) decimals l.opts =
      ⟨nn, nm, if 0 < nc then nc else 0⟩ := by
  subst hnumeric hmasked hseps hnn hnm hnc
  rw [handleMaskedInput]
  simp only [Option.getD_some]
  rw [if_pos (And.intro trivial hsep)]
  rw [splitOnChar_length]
  simp

/-- Witness for C2 at the spec's example: masked `"1,000,000,000"` with the
caret on the last comma (index 9) yields `"100,000,000"` with the caret
retreating by two, to 7. -/
theorem c2_separator_delete_witness :
    handleMaskedInput ("1000000000".toList) true (some 9) 18 periodCommaOptions =
      ⟨"100000000".toList, "100,000,000".toList, 7⟩ := by
  have h := c2_separator_delete Locale.periodDecimal ("1000000000".toList) 18 9
    (toNumericString ("1000000000".toList) 18 Locale.periodDecimal.opts)
    (mask (toNumericString ("1000000000".toList) 18 Locale.periodDecimal.opts)
      Locale.periodDecimal.opts)
    (removeCharAt (toNumericString ("1000000000".toList) 18 Locale.periodDecimal.opts)
      ((9 : Int) - 2))
    (mask (removeCharAt (toNumericString ("1000000000".toList) 18 Locale.periodDecimal.opts)
      ((9 : Int) - 2)) Locale.periodDecimal.opts)
    2 ((9 : Int) - 2) rfl rfl (by decide) (by decide) rfl rfl (by decide)
  exact h.trans (by decide)

/-- C10: `adjustCursorPosition` clamps only from below at 0 — with equal-length
texts and caret 10 on a 3-character text the caret stays 10, strictly greater
than the text length. -/
theorem c10_no_upper_clamp :
    adjustCursorPosition ("abc".toList) ("abc".toList) 10 = 10 ∧
      (("abc".toList).length : Int) < adjustCursorPosition ("abc".toList) ("abc".toList) 10 := by
  constructor <;> decide

/-- The controller's transient state (part_002, lines 126-129): the displayed
masked text and the caret offset. -/
structure InputState where
  internalValue : List Char
  cursor : Int
deriving DecidableEq, Repr

/-- A notification handed to `onChange`: the scaled value, the new masked
text, and the `changedFromProps` flag. -/
structure Notification where
  value : Nat
  rawValue : List Char
  changedFromExternalProps : Bool
deriving DecidableEq, Repr

/-- Initial state of `useBigIntInput` (part_002, lines 126-129):
`value ? mask(formatUnits(value, decimals)) : ''` — JavaScript truthiness
makes both an absent value and a zero value render as the empty string; the
caret starts at the end of the text. -/
def initState (value : Option Nat) (decimals : Nat) (o : FormattingOptions) :
    InputState :=
  let internalValue := match value with
    | some v => if v ≠ 0 then mask (formatUnits v decimals) o else []
    | none => []
  ⟨internalValue, (internalValue.length : Int)⟩

/-- The external-value reconciliation step of `useBigIntInput` (part_002,
lines 143-149): when a value is supplied and it differs from the parse of the
unmasked internal text, the masked text is recomputed (a zero value becomes
the empty string), the caret offset is kept, and a notification with
`changedFromProps = true` fires; otherwise nothing happens.  A parse failure
(`none`) counts as different, matching the strict `!==` on the JavaScript
side for any reachable internal text. -/
def reconcile (st : InputState) (value : Option Nat) (decimals : Nat)
    (o : FormattingOptions) : InputState × Option Notification :=
  match value with
  | none => (st, none)
  | some v =>
    if parseUnits (unmask st.internalValue o) decimals ≠ some v then
      let newInternalValue := if v = 0 then [] else mask (formatUnits v decimals) o
      (⟨newInternalValue, st.cursor⟩, some ⟨v, newInternalValue, true⟩)
    else (st, none)

/-- C3: the external-value entry point is a no-op (state untouched, no
notification) exactly when the supplied value equals the parse of the
unmasked current internal text; otherwise the internal text is recomputed and
a notification with `changedFromExternalProps = true` fires. -/
theorem c3_external_reconciliation (l : Locale) (st : InputState) (v : Nat)
    (decimals : Nat) :
    reconcile st (some v) decimals l.opts =
      if parseUnits (unmask st.internalValue l.opts) decimals = some v
      then (st, none)
      else ((⟨if v = 0 then [] else mask (formatUnits v decimals) l.opts, st.cursor⟩ :
          InputState),
        some ⟨v, if v = 0 then [] else mask (formatUnits v decimals) l.opts, true⟩) := by
  rw [reconcile]
  by_cases h : parseUnits (unmask st.internalValue l.opts) decimals = some v
  · rw [if_neg (not_not_intro h), if_pos h]
  · rw [if_pos h, if_neg h]

/-- C9: a supplied zero value renders as the empty string, never as `"0"` —
at initialization, and in the reconciliation step whenever zero differs from
the parse of the current unmasked internal text. -/
theorem c9_zero_displays_empty (l : Locale) (decimals : Nat) (st : InputState)
    (h : parseUnits (unmask st.internalValue l.opts) decimals ≠ some 0) :
    (initState (some 0) decimals l.opts).internalValue = [] ∧
      (reconcile st (some 0) decimals l.opts).1.internalValue = [] ∧
      (reconcile st (some 0) decimals l.opts).1.internalValue ≠ ['0'] := by
  refine ⟨rfl, ?_, ?_⟩ <;> rw [reconcile] <;> rw [if_pos h] <;> simp

/-- Witness for C9: a field showing `"1"` (which parses to 1 ≠ 0 at scale 0)
reconciled against the external value 0 blanks the text. -/
theorem c9_zero_displays_empty_witness :
    (initState (some 0) 0 Locale.periodDecimal.opts).internalValue = [] ∧
      (reconcile ⟨['1'], 1⟩ (some 0) 0 Locale.periodDecimal.opts).1.internalValue = [] ∧
      (reconcile ⟨['1'], 1⟩ (some 0) 0 Locale.periodDecimal.opts).1.internalValue ≠ ['0'] :=
  c9_zero_displays_empty Locale.periodDecimal 0 ⟨['1'], 1⟩ (by decide)

/-- State of `useStateWithHistory` (part_001, lines 3-32): the history
entries, the current index, and the React state (`none` models the JavaScript
`undefined` that an out-of-range array read would produce). -/
structure HistoryState (T : Type) where
  entries : List T
  index : Nat
  state : Option T
deriving DecidableEq, Repr

namespace HistoryState

/-- Initial state: `entries = [initialValue]`, `index = 0`. -/
def initial {T : Type} (a : T) : HistoryState T := ⟨[a], 0, some a⟩

/-- `set` with an already-resolved new value (part_001, lines 8-15): no-op
when the new value equals the current one; otherwise truncate the entries to
`[0, index]`, append the new value, and move the index to the new last
position.  The returned flag records whether a state update (notification)
happened. -/
def setCore {T : Type} [DecidableEq T] (h : HistoryState T) (newState : T) :
    HistoryState T × Bool :=
  if some newState = h.state then (h, false)
  else
    let entries := h.entries.take (h.index + 1) ++ [newState]
    (⟨entries, entries.length - 1, some newState⟩, true)

/-- `undo` (part_001, lines 17-22): no-op at index 0, otherwise step the index
back and adopt that entry. -/
def undo {T : Type} (h : HistoryState T) : HistoryState T :=
  if h.index = 0 then h
  else ⟨h.entries, h.index - 1, h.entries.get? (h.index - 1)⟩

/-- `redo` (part_001, lines 24-29): no-op when there is no entry after the
index, otherwise step the index forward and adopt that entry. -/
def redo {T : Type} (h : HistoryState T) : HistoryState T :=
  match h.entries.get? (h.index + 1) with
  | none => h
  | some v => ⟨h.entries, h.index + 1, some v⟩

end HistoryState

/-- One user-visible operation on the history stack.  A functional updater
passed to `set` is resolved against the current state before comparison
(part_001, line 9), so it is represented by its resolved value. -/
inductive HistOp (T : Type) where
  | set (v : T)
  | undo
  | redo

/-- Apply one operation. -/
def applyHistOp {T : Type} [DecidableEq T] (h : HistoryState T) :
    HistOp T → HistoryState T
  | .set v => (HistoryState.setCore h v).1
  | .undo => HistoryState.undo h
  | .redo => HistoryState.redo h

/-- Run a sequence of operations. -/
def runHistOps {T : Type} [DecidableEq T] (h : HistoryState T) :
    List (HistOp T) → HistoryState T
  | [] => h
  | op :: ops => runHistOps (applyHistOp h op) ops

theorem hist_invariant_step {T : Type} [DecidableEq T] (h : HistoryState T)
    (op : HistOp T) (hinv : h.index < h.entries.length) :
    (applyHistOp h op).index < (applyHistOp h op).entries.length := by
  cases op with
  | set v =>
    simp only [applyHistOp, HistoryState.setCore]
    split
    · exact hinv
    · simp
  | undo =>
    simp only [applyHistOp, HistoryState.undo]
    split
    · exact hinv
    · simp only
      omega
  | redo =>
    simp only [applyHistOp, HistoryState.redo]
    cases hr : h.entries.get? (h.index + 1) with
    | none => exact hinv
    | some v =>
      simp only
      exact List.get?_eq_some.mp hr |>.choose

/-- C6: every state reachable from the initial state by any finite sequence
of set, undo and redo operations satisfies `0 ≤ index < entries.length`, and
`entries` is never empty. -/
theorem c6_history_invariant {T : Type} [DecidableEq T] (a : T)
    (ops : List (HistOp T)) :
    (runHistOps (HistoryState.initial a) ops).index <
        (runHistOps (HistoryState.initial a) ops).entries.length ∧
      (runHistOps (HistoryState.initial a) ops).entries ≠ [] := by
  suffices h : ∀ (st : HistoryState T), st.index < st.entries.length →
      (runHistOps st ops).index < (runHistOps st ops).entries.length by
    have hrun := h (HistoryState.initial a) (by simp [HistoryState.initial])
    refine ⟨hrun, fun hnil => ?_⟩
    rw [hnil] at hrun
    simp at hrun
  intro st hst
  induction ops generalizing st with
  | nil => exact hst
  | cons op ops ih => exact ih _ (hist_invariant_step st op hst)

/-- C7: from `entries = [0], index = 0`, the sequence `set 1`, `set 2`,
`undo`, `set 3` yields `entries = [0, 1, 3]` and `index = 2`, and no number
of subsequent `redo` calls recovers the discarded value 2. -/
theorem c7_history_linearity :
    (runHistOps (HistoryState.initial 0) [.set 1, .set 2, .undo, .set 3]).entries =
        [0, 1, 3] ∧
      (runHistOps (HistoryState.initial 0) [.set 1, .set 2, .undo, .set 3]).index = 2 ∧
      ∀ n : Nat, (HistoryState.redo^[n]
          (runHistOps (HistoryState.initial 0) [.set 1, .set 2, .undo, .set 3])).state ≠
        some 2 := by
  refine ⟨by decide, by decide, fun n => ?_⟩
  have hfix : HistoryState.redo
      (runHistOps (HistoryState.initial 0) [.set 1, .set 2, .undo, .set 3]) =
      runHistOps (HistoryState.initial 0) [.set 1, .set 2, .undo, .set 3] := by decide
  rw [Function.iterate_fixed hfix n]
  decide

/-- C8: `set` with a value equal to the current one — directly or through an
updater resolving to the current value — changes nothing: entries do not
grow, the index does not move, the current value stays, and no notification
fires. -/
theorem c8_history_set_noop {T : Type} [DecidableEq T] (h : HistoryState T) (v : T)
    (hv : h.state = some v) :
    HistoryState.setCore h v = (h, false) ∧
      ∀ f : T → T, f v = v → HistoryState.setCore h (f v) = (h, false) := by
  constructor
  · rw [HistoryState.setCore, if_pos hv.symm]
  · intro f hf
    rw [hf, HistoryState.setCore, if_pos hv.symm]

/-- Witness for C8 at the freshly initialized history over 0. -/
theorem c8_history_set_noop_witness :
    HistoryState.setCore (HistoryState.initial (0 : Nat)) 0 =
      (HistoryState.initial (0 : Nat), false) :=
  (c8_history_set_noop (HistoryState.initial (0 : Nat)) 0 rfl).1

end UseBigIntInput
